import Mathlib

set_option maxRecDepth 8192

/-!
Shallow embedding of the scon SSH-config wizard (src/run/main script).
The embedding models the pure content-level behaviour of the script:
file contents are lists of characters, Python exceptions are modelled by
Except or Option results, and the regular-expression scan of
SSH_KEY_FILE_REGEX is modelled by a deterministic matcher that follows
the greedy backtracking semantics of the pattern

  Host +(?P<ID>.+)\n\tHostname +(?P<hostname>\S+)\n\tUser +(?P<user>\S+)
  \n\tPort +(?P<port>\d+)\n\tIdentityFile +(?P<key_file>\S+)\n?

restricted to ASCII character classes (the claims only concern ASCII
content).
-/

instance exceptDecEq {ε α : Type} [DecidableEq ε] [DecidableEq α] :
    DecidableEq (Except ε α) := fun a b =>
  match a, b with
  | Except.error e, Except.error f =>
    if h : e = f then isTrue (by rw [h])
    else isFalse (by intro hh; cases hh; exact h rfl)
  | Except.error _, Except.ok _ => isFalse (by intro hh; cases hh)
  | Except.ok _, Except.error _ => isFalse (by intro hh; cases hh)
  | Except.ok x, Except.ok y =>
    if h : x = y then isTrue (by rw [h])
    else isFalse (by intro hh; cases hh; exact h rfl)

/-- Python regex class \s restricted to ASCII: space, tab, newline,
carriage return, vertical tab, form feed. -/
def isPySpace (c : Char) : Bool :=
  c = ' ' || c = '\t' || c = '\n' || c = '\x0d' || c = '\x0b' || c = '\x0c'

/-- Python regex class \d restricted to ASCII decimal digits. -/
def isDigitChar (c : Char) : Bool :=
  '0' ≤ c && c ≤ '9'

/-- Drops a literal token from the head of the input, failing when the
input does not start with the literal. -/
def dropLit : List Char → List Char → Option (List Char)
  | [], l => some l
  | _ :: _, [] => none
  | c :: cs, x :: xs => if x = c then dropLit cs xs else none

/-- Literal Host of the regex. -/
def hostTag : List Char := "Host".data

/-- Literal tab Hostname of the regex. -/
def hostnameTag : List Char := "\tHostname".data

/-- Literal tab User of the regex. -/
def userTag : List Char := "\tUser".data

/-- Literal tab Port of the regex. -/
def portTag : List Char := "\tPort".data

/-- Literal tab IdentityFile of the regex. -/
def keyTag : List Char := "\tIdentityFile".data

/-- Matches the fragment ` +(?P<ID>.+)\n` of the regex: one or more
spaces, then a greedy dot-plus group, then a newline. The greedy
space run takes every space it can while leaving at least one
non-newline character for the group. Returns the group and the text
after the newline. -/
def idLine (l : List Char) : Option (List Char × List Char) :=
  let L := l.takeWhile (fun c => decide (c ≠ '\n'))
  if L.length < l.length then
    let p := (L.takeWhile (fun c => decide (c = ' '))).length
    if p = 0 then none
    else if p < L.length then some (L.drop p, l.drop (L.length + 1))
    else if 2 ≤ L.length then some (L.drop (L.length - 1), l.drop (L.length + 1))
    else none
  else none

/-- Matches the fragment ` +(?P<g>\S+)\n`: one or more spaces, a maximal
nonempty run of non-whitespace characters, then a newline. -/
def tokLine (l : List Char) : Option (List Char × List Char) :=
  let sp := l.takeWhile (fun c => decide (c = ' '))
  if sp.length = 0 then none
  else
    let l1 := l.drop sp.length
    let tok := l1.takeWhile (fun c => !isPySpace c)
    if tok.length = 0 then none
    else
      match l1.drop tok.length with
      | '\n' :: rest => some (tok, rest)
      | _ => none

/-- Matches the fragment ` +(?P<port>\d+)\n`: one or more spaces, a
maximal nonempty run of decimal digits, then a newline. -/
def digLine (l : List Char) : Option (List Char × List Char) :=
  let sp := l.takeWhile (fun c => decide (c = ' '))
  if sp.length = 0 then none
  else
    let l1 := l.drop sp.length
    let tok := l1.takeWhile isDigitChar
    if tok.length = 0 then none
    else
      match l1.drop tok.length with
      | '\n' :: rest => some (tok, rest)
      | _ => none

/-- Matches the final fragment ` +(?P<key_file>\S+)\n?`: one or more
spaces, a maximal nonempty run of non-whitespace characters, then an
optional newline which is consumed greedily when present. -/
def lastLine (l : List Char) : Option (List Char × List Char) :=
  let sp := l.takeWhile (fun c => decide (c = ' '))
  if sp.length = 0 then none
  else
    let l1 := l.drop sp.length
    let tok := l1.takeWhile (fun c => !isPySpace c)
    if tok.length = 0 then none
    else
      match l1.drop tok.length with
      | '\n' :: rest => some (tok, rest)
      | rest => some (tok, rest)

/-- Raw groups of one regex match of SSH_KEY_FILE_REGEX. -/
structure RawMatch where
  ID : List Char
  hostname : List Char
  user : List Char
  portStr : List Char
  key_file : List Char
deriving DecidableEq

/-- Attempts one anchored match of SSH_KEY_FILE_REGEX at the head of the
input, returning the captured groups and the text after the match: the
Host literal, the id line, then for each further field its tab-prefixed
literal and its line fragment, in regex order. -/
def tryMatch (l : List Char) : Option (RawMatch × List Char) :=
  (dropLit hostTag l).bind fun a =>
  (idLine a).bind fun idb =>
  (dropLit hostnameTag idb.2).bind fun b2 =>
  (tokLine b2).bind fun hc =>
  (dropLit userTag hc.2).bind fun c2 =>
  (tokLine c2).bind fun ud =>
  (dropLit portTag ud.2).bind fun d2 =>
  (digLine d2).bind fun pe =>
  (dropLit keyTag pe.2).bind fun e2 =>
  (lastLine e2).bind fun kf =>
  some (⟨idb.1, hc.1, ud.1, pe.1, kf.1⟩, kf.2)

/-- Fuel-indexed scan over the input: at each position either emit the
match found there and continue after it, or advance one character.
With fuel at least the input length this is exactly the left-to-right
non-overlapping scan performed by re.finditer. -/
def scanF : Nat → List Char → List RawMatch
  | 0, _ => []
  | _ + 1, [] => []
  | fuel + 1, c :: cs =>
    match tryMatch (c :: cs) with
    | some (m, rest) => m :: scanF fuel rest
    | none => scanF fuel cs

/-- All non-overlapping matches of SSH_KEY_FILE_REGEX in the content, in
file order, as produced by re.finditer. -/
def finditer (l : List Char) : List RawMatch :=
  scanF l.length l

/-- One parsed host record, mirroring the SSHConfig dataclass. Strings
are lists of characters and the Python int port is a natural number
(the parser only ever produces values of decimal digit strings). -/
structure SSHConfig where
  ID : List Char
  hostname : List Char
  user : List Char
  port : Nat
  key_file : List Char
deriving DecidableEq

/-- Numeric value of a decimal digit string, most significant digit
first. -/
def decValue (l : List Char) : Nat :=
  l.foldl (fun a c => 10 * a + (c.toNat - 48)) 0

/-- Python int conversion as applied to a regex group: succeeds on a
nonempty all-digit string with its decimal value, raises ValueError
otherwise. -/
def pyInt (l : List Char) : Except String Nat :=
  if l ≠ [] ∧ l.all isDigitChar then Except.ok (decValue l)
  else Except.error "ValueError"

/-- Converts the raw matches one by one into SSHConfig records, stopping
with the error of the first failing port conversion, exactly as the
append loop of file_to_dataclass would. -/
def parseAll : List RawMatch → Except String (List SSHConfig)
  | [] => Except.ok []
  | m :: ms =>
    match pyInt m.portStr with
    | Except.error e => Except.error e
    | Except.ok p =>
      match parseAll ms with
      | Except.error e => Except.error e
      | Except.ok rs => Except.ok (⟨m.ID, m.hostname, m.user, p, m.key_file⟩ :: rs)

/-- Content-level model of file_to_dataclass: scan the content with the
regex and convert each match into a record; an error value models a
Python exception escaping the function. -/
def file_to_dataclass (content : List Char) : Except String (List SSHConfig) :=
  parseAll (finditer content)

/-- Record built from a raw match with the unchecked digit-string value
as port. -/
def convRaw (m : RawMatch) : SSHConfig :=
  ⟨m.ID, m.hostname, m.user, decValue m.portStr, m.key_file⟩

/-- Pure view of the parse result: one record per match, in file order. -/
def parsedRecords (content : List Char) : List SSHConfig :=
  (finditer content).map convRaw

/-- Character of one decimal digit. -/
def digitChar (d : Nat) : Char :=
  Char.ofNat (48 + d)

/-- Fuel-indexed decimal printer for positive numbers, most significant
digit first. -/
def natToDecAux : Nat → Nat → List Char
  | 0, _ => []
  | fuel + 1, n =>
    if n = 0 then []
    else natToDecAux fuel (n / 10) ++ [digitChar (n % 10)]

/-- Decimal representation of a natural number, as the Python format of
an int inside an f-string produces it. -/
def natToDec (n : Nat) : List Char :=
  if n = 0 then ['0'] else natToDecAux n n

/-- Text of one config block as written by dataclass_to_file: the five
field lines followed by one blank line. -/
def blockStr (c : SSHConfig) : List Char :=
  "Host ".data ++ (c.ID ++ ("\n\tHostname ".data ++ (c.hostname ++
    ("\n\tUser ".data ++ (c.user ++ ("\n\tPort ".data ++ (natToDec c.port ++
      ("\n\tIdentityFile ".data ++ (c.key_file ++ "\n\n".data)))))))))

/-- Content-level model of dataclass_to_file: the full file content
written for a record sequence, one block per record in order. -/
def dataclass_to_file : List SSHConfig → List Char
  | [] => []
  | c :: rest => blockStr c ++ dataclass_to_file rest

/-- Field of a well-formed record: a nonempty string with no whitespace
characters. -/
def isTok (l : List Char) : Prop :=
  l ≠ [] ∧ ∀ c ∈ l, isPySpace c = false

instance (l : List Char) : Decidable (isTok l) := by
  unfold isTok; infer_instance

/-- Well-formed host record in the sense of the round-trip property: the
four string fields are non-space tokens (the port, a natural number,
always serializes to decimal digits). -/
def WellFormed (r : SSHConfig) : Prop :=
  isTok r.ID ∧ isTok r.hostname ∧ isTok r.user ∧ isTok r.key_file

instance (r : SSHConfig) : Decidable (WellFormed r) := by
  unfold WellFormed; infer_instance

/-- Raw match groups that the regex produces on the serialized block of
a record. -/
def rawOf (r : SSHConfig) : RawMatch :=
  ⟨r.ID, r.hostname, r.user, natToDec r.port, r.key_file⟩

/-- Core decision of the add_host flow once the new record is assembled:
when some stored record has the same hostname, the flow asks for
confirmation; declining returns without writing (the stored sequence
is untouched, modelled by none), confirming filters every record with
that hostname out and appends the new record; with no hostname clash
the new record is just appended. -/
def add_host_update (hosts : List SSHConfig) (new : SSHConfig)
    (confirmOverwrite : Bool) : Option (List SSHConfig) :=
  if hosts.any (fun h => h.hostname = new.hostname) then
    if confirmOverwrite then
      some (hosts.filter (fun h => h.hostname ≠ new.hostname) ++ [new])
    else none
  else some (hosts ++ [new])

/-- Python split with separator and maxsplit one: returns the parts
before and after the first separator occurrence when there is one. -/
def pySplitOnce (sep : Char) : List Char → Option (List Char × List Char)
  | [] => none
  | c :: cs =>
    if c = sep then some ([], cs)
    else (pySplitOnce sep cs).map (fun p => (c :: p.1, p.2))

/-- Alias derivation of the add_host wizard: the statement
ID, _ = hostname.split(".", 1) unpacks the split result into exactly
two names, which raises ValueError whenever the hostname contains no
dot (the split then yields a single part). -/
def deriveAlias (hostname : List Char) : Except String (List Char) :=
  match pySplitOnce '.' hostname with
  | some (a, _) => Except.ok a
  | none => Except.error "ValueError: not enough values to unpack"

/-- Fatal errors of the list_config flow. -/
inductive PyErr where
  | valueError
  | indexError
deriving DecidableEq

/-- Python max over a sequence of naturals: raises ValueError on an
empty sequence. -/
def pyMaxNat : List Nat → Except PyErr Nat
  | [] => Except.error PyErr.valueError
  | x :: xs => Except.ok (xs.foldl Nat.max x)

/-- Python str.ljust with a fill character: pads on the right up to the
width, never truncates. -/
def ljust (l : List Char) (w : Nat) (fill : Char) : List Char :=
  l ++ List.replicate (w - l.length) fill

/-- Content-level model of list_config: the pair of the lines printed
before control leaves the function and the fatal error, if any. The
first column width is the max ID length, the second the max of
user at hostname lengths; Python max raises ValueError on an empty
sequence before anything is printed, and the final usage line indexes
the first record unconditionally. -/
def list_config (hosts : List SSHConfig) : List (List Char) × Option PyErr :=
  match pyMaxNat (hosts.map fun h => h.ID.length) with
  | Except.error e => ([], some e)
  | Except.ok i =>
    match pyMaxNat (hosts.map fun h => h.hostname.length + 1 + h.user.length) with
    | Except.error e => ([], some e)
    | Except.ok j =>
      let header := ljust "IDENTIFIER".data i ' ' ++ " | HOST".data
      let sep := List.replicate (i + j + 3) '='
      let rows := hosts.map fun h =>
        ljust h.ID i '.' ++ " | ".data ++ ljust (h.user ++ "@".data ++ h.hostname) j '.'
      match hosts.head? with
      | none => (header :: sep :: rows, some PyErr.indexError)
      | some h0 =>
        (header :: sep :: rows ++
          ["\nUsage: \x27ssh <identifier>\x27 (eg: ssh ".data ++ h0.ID ++ ")".data], none)

/-- Commands of the dispatch loop, in source order, with a marker for
the unknown-command branch. -/
inductive Command where
  | ssh
  | remove
  | add
  | list
  | help
  | exit
  | configure
  | clear
  | unknown
deriving DecidableEq

/-- Python str.startswith of a literal. -/
def startsWithLit : List Char → List Char → Bool
  | [], _ => true
  | _ :: _, [] => false
  | c :: cs, x :: xs => x = c && startsWithLit cs xs

/-- Branch selection of the dispatch loop: the chain of startswith tests
in source order, falling through to the unknown-command branch, which
prints exactly one message and performs no action. -/
def dispatch (text : List Char) : Command :=
  if startsWithLit "ssh".data text then Command.ssh
  else if startsWithLit "remove".data text then Command.remove
  else if startsWithLit "add".data text then Command.add
  else if startsWithLit "list".data text then Command.list
  else if startsWithLit "help".data text then Command.help
  else if startsWithLit "exit".data text then Command.exit
  else if startsWithLit "configure".data text then Command.configure
  else if startsWithLit "clear".data text then Command.clear
  else Command.unknown

/-- First whitespace-delimited token of an input line. -/
def firstTok (l : List Char) : List Char :=
  l.takeWhile (fun c => !isPySpace c)

/-- States of the dispatch loop. -/
inductive LoopState where
  | Running
  | Terminated
deriving DecidableEq

/-- Initial state of the dispatch loop. -/
def initialLoopState : LoopState := LoopState.Running

/-- One observable event of a loop iteration: a line of input, a
keyboard interrupt at the prompt, or end of input. -/
inductive LoopEvent where
  | line (text : List Char)
  | keyboardInterrupt
  | endOfInput

/-- State after one iteration of the dispatch loop from the Running
state: end of input exits the process, a keyboard interrupt prints a
hint and continues, a line terminates only through the break of the
exit branch. -/
def loopStep (e : LoopEvent) : LoopState :=
  match e with
  | LoopEvent.endOfInput => LoopState.Terminated
  | LoopEvent.keyboardInterrupt => LoopState.Running
  | LoopEvent.line t =>
    if dispatch t = Command.exit then LoopState.Terminated else LoopState.Running

/-! Helper lemmas about list scanning. -/

theorem takeWhile_app_stop (p : Char → Bool) (a : List Char) (c : Char) (b : List Char)
    (ha : ∀ x ∈ a, p x = true) (hc : p c = false) :
    (a ++ c :: b).takeWhile p = a := by
  induction a with
  | nil => simp [List.takeWhile_cons, hc]
  | cons y ys ih =>
    have hy : p y = true := ha y (by simp)
    simp only [List.cons_append, List.takeWhile_cons, hy, if_true]
    rw [ih (fun x hx => ha x (by simp [hx]))]

theorem drop_app_cons (a : List Char) (c : Char) (b : List Char) :
    (a ++ c :: b).drop (a.length + 1) = b := by
  induction a with
  | nil => simp
  | cons y ys ih => simp [ih]

theorem dropLit_self : ∀ (t l : List Char), dropLit t (t ++ l) = some l := by
  intro t
  induction t with
  | nil => intro l; rfl
  | cons c cs ih => intro l; simp [dropLit, ih]

theorem dropLit_len : ∀ {t l r : List Char}, dropLit t l = some r →
    r.length + t.length = l.length := by
  intro t
  induction t with
  | nil => intro l r h; cases h; simp
  | cons c cs ih =>
    intro l r h
    cases l with
    | nil => exact Option.noConfusion h
    | cons x xs =>
      by_cases hx : x = c
      · simp only [dropLit, if_pos hx] at h
        have := ih h
        simp [List.length_cons]
        omega
      · simp [dropLit, hx] at h

theorem notSpace_ne {c : Char} (h : isPySpace c = false) :
    c ≠ ' ' ∧ c ≠ '\t' ∧ c ≠ '\n' := by
  refine ⟨?_, ?_, ?_⟩ <;> rintro rfl <;> simp [isPySpace] at h

/-! Specification of the line matchers on serializer shaped input. -/

theorem idLine_spec {i : List Char} (hi : isTok i) (t : List Char) :
    idLine (' ' :: (i ++ '\n' :: t)) = some (i, t) := by
  obtain ⟨i0, is, rfl⟩ := List.exists_cons_of_ne_nil hi.1
  have hall : ∀ x ∈ (' ' :: i0 :: is), decide (x ≠ '\n') = true := by
    intro x hx
    rcases List.mem_cons.mp hx with h | h
    · subst h; decide
    · exact decide_eq_true ((notSpace_ne (hi.2 x h)).2.2)
  have hL : ((' ' :: i0 :: is) ++ '\n' :: t).takeWhile (fun c => decide (c ≠ '\n'))
      = ' ' :: i0 :: is :=
    takeWhile_app_stop _ _ _ _ hall (by decide)
  have hsp : (' ' :: i0 :: is).takeWhile (fun c => decide (c = ' ')) = [' '] := by
    have h0 : decide (i0 = ' ') = false :=
      decide_eq_false ((notSpace_ne (hi.2 i0 (by simp))).1)
    simp [List.takeWhile_cons, h0]
  have hdrop : ((' ' :: i0 :: is) ++ '\n' :: t).drop ((' ' :: i0 :: is).length + 1) = t :=
    drop_app_cons _ _ _
  have hshape : ' ' :: (i0 :: is ++ '\n' :: t) = (' ' :: i0 :: is) ++ '\n' :: t := by simp
  rw [hshape]
  simp only [idLine, hL, hsp]
  rw [if_pos (by simp only [List.length_append, List.length_cons, List.length_nil]; omega),
      if_neg (by simp),
      if_pos (by simp only [List.length_singleton, List.length_cons, List.length_nil]; omega),
      hdrop]
  simp

theorem tokLine_spec {tok : List Char} (ht : isTok tok) (t : List Char) :
    tokLine (' ' :: (tok ++ '\n' :: t)) = some (tok, t) := by
  obtain ⟨c0, cs, rfl⟩ := List.exists_cons_of_ne_nil ht.1
  have hsp : (' ' :: (c0 :: cs ++ '\n' :: t)).takeWhile (fun c => decide (c = ' '))
      = [' '] := by
    have h0 : decide (c0 = ' ') = false :=
      decide_eq_false ((notSpace_ne (ht.2 c0 (by simp))).1)
    simp [List.takeWhile_cons, h0]
  have htok : (c0 :: cs ++ '\n' :: t).takeWhile (fun c => !isPySpace c) = c0 :: cs :=
    takeWhile_app_stop _ _ _ _
      (fun x hx => by simp [ht.2 x hx]) (by decide)
  have hdrop2 : (c0 :: cs ++ '\n' :: t).drop (c0 :: cs).length = '\n' :: t :=
    List.drop_left _ _
  simp only [tokLine, hsp, List.length_singleton]
  rw [if_neg (by simp)]
  simp only [List.drop_succ_cons, List.drop_zero, htok]
  rw [if_neg (by simp), hdrop2]
  rfl

theorem digit_not_space {c : Char} (h : isDigitChar c = true) : isPySpace c = false := by
  cases hsp0 : isPySpace c
  · rfl
  · exfalso
    simp only [isPySpace, Bool.or_eq_true, decide_eq_true_eq] at hsp0
    rcases hsp0 with (((((h1 | h1) | h1) | h1) | h1) | h1) <;> subst h1 <;> revert h <;> decide

theorem digLine_spec {d : List Char} (hd1 : d ≠ [])
    (hd2 : ∀ c ∈ d, isDigitChar c = true) (t : List Char) :
    digLine (' ' :: (d ++ '\n' :: t)) = some (d, t) := by
  obtain ⟨c0, cs, rfl⟩ := List.exists_cons_of_ne_nil hd1
  have h0ns : isPySpace c0 = false := digit_not_space (hd2 c0 (by simp))
  have hsp : (' ' :: (c0 :: cs ++ '\n' :: t)).takeWhile (fun c => decide (c = ' '))
      = [' '] := by
    have h0 : decide (c0 = ' ') = false := decide_eq_false ((notSpace_ne h0ns).1)
    simp [List.takeWhile_cons, h0]
  have htok : (c0 :: cs ++ '\n' :: t).takeWhile isDigitChar = c0 :: cs :=
    takeWhile_app_stop _ _ _ _ (fun x hx => hd2 x hx) (by decide)
  have hdrop2 : (c0 :: cs ++ '\n' :: t).drop (c0 :: cs).length = '\n' :: t :=
    List.drop_left _ _
  simp only [digLine, hsp, List.length_singleton]
  rw [if_neg (by simp)]
  simp only [List.drop_succ_cons, List.drop_zero, htok]
  rw [if_neg (by simp), hdrop2]
  rfl

theorem lastLine_spec {tok : List Char} (ht : isTok tok) (t : List Char) :
    lastLine (' ' :: (tok ++ '\n' :: t)) = some (tok, t) := by
  obtain ⟨c0, cs, rfl⟩ := List.exists_cons_of_ne_nil ht.1
  have hsp : (' ' :: (c0 :: cs ++ '\n' :: t)).takeWhile (fun c => decide (c = ' '))
      = [' '] := by
    have h0 : decide (c0 = ' ') = false :=
      decide_eq_false ((notSpace_ne (ht.2 c0 (by simp))).1)
    simp [List.takeWhile_cons, h0]
  have htok : (c0 :: cs ++ '\n' :: t).takeWhile (fun c => !isPySpace c) = c0 :: cs :=
    takeWhile_app_stop _ _ _ _
      (fun x hx => by simp [ht.2 x hx]) (by decide)
  have hdrop2 : (c0 :: cs ++ '\n' :: t).drop (c0 :: cs).length = '\n' :: t :=
    List.drop_left _ _
  simp only [lastLine, hsp, List.length_singleton]
  rw [if_neg (by simp)]
  simp only [List.drop_succ_cons, List.drop_zero, htok]
  rw [if_neg (by simp), hdrop2]
  rfl

/-! Length bounds of the matchers, giving progress of the scan. -/

theorem idLine_len {l i r : List Char} (h : idLine l = some (i, r)) :
    r.length < l.length := by
  simp only [idLine] at h
  split_ifs at h with h1 h2 h3 h4
  all_goals first
  | exact absurd h (fun hh => Option.noConfusion hh)
  | (cases h; simp only [List.length_drop]; omega)

theorem tokLine_len {l tok r : List Char} (h : tokLine l = some (tok, r)) :
    r.length ≤ l.length := by
  simp only [tokLine] at h
  split_ifs at h with h1 h2
  split at h
  · rename_i rest heq
    cases h
    have hlen := congrArg List.length heq
    simp only [List.length_drop, List.length_cons] at hlen
    omega
  · exact absurd h (fun hh => Option.noConfusion hh)

theorem digLine_len {l tok r : List Char} (h : digLine l = some (tok, r)) :
    r.length ≤ l.length := by
  simp only [digLine] at h
  split_ifs at h with h1 h2
  split at h
  · rename_i rest heq
    cases h
    have hlen := congrArg List.length heq
    simp only [List.length_drop, List.length_cons] at hlen
    omega
  · exact absurd h (fun hh => Option.noConfusion hh)

theorem lastLine_len {l tok r : List Char} (h : lastLine l = some (tok, r)) :
    r.length ≤ l.length := by
  simp only [lastLine] at h
  split_ifs at h with h1 h2
  split at h
  · rename_i rest heq
    cases h
    have hlen := congrArg List.length heq
    simp only [List.length_drop, List.length_cons] at hlen
    omega
  · cases h
    simp only [List.length_drop]
    omega

theorem tryMatch_len {l : List Char} {m : RawMatch} {rest : List Char}
    (h : tryMatch l = some (m, rest)) : rest.length < l.length := by
  simp only [tryMatch, Option.bind_eq_some] at h
  obtain ⟨a, ha, ⟨idv, b⟩, hid, b2, hb2, ⟨hv, c⟩, hhc, c2, hc2, ⟨uv, d⟩, hud,
    d2, hd2, ⟨pv, e⟩, hpe, e2, he2, ⟨kv, f⟩, hkf, hfin⟩ := h
  simp only [Option.some.injEq, Prod.mk.injEq] at hfin
  obtain ⟨hm, hr⟩ := hfin
  subst hr
  dsimp only at hb2 hc2 hd2 he2
  have l1 := dropLit_len ha
  have l2 := idLine_len hid
  have l3 := dropLit_len hb2
  have l4 := tokLine_len hhc
  have l5 := dropLit_len hc2
  have l6 := tokLine_len hud
  have l7 := dropLit_len hd2
  have l8 := digLine_len hpe
  have l9 := dropLit_len he2
  have l10 := lastLine_len hkf
  omega

/-! Fuel invariance of the scan. -/

theorem scanF_nil (f : Nat) : scanF f [] = [] := by
  cases f <;> rfl

theorem scanF_cons (f : Nat) (c : Char) (cs : List Char) :
    scanF (f + 1) (c :: cs) = match tryMatch (c :: cs) with
      | some (m, rest) => m :: scanF f rest
      | none => scanF f cs := rfl

theorem scanF_congr : ∀ (f g : Nat) (l : List Char),
    l.length ≤ f → l.length ≤ g → scanF f l = scanF g l := by
  intro f
  induction f with
  | zero =>
    intro g l hf _
    have : l = [] := List.eq_nil_of_length_eq_zero (Nat.le_zero.mp hf)
    subst this
    simp [scanF_nil, scanF]
  | succ f ih =>
    intro g l hf hg
    cases l with
    | nil => simp [scanF_nil]
    | cons c cs =>
      cases g with
      | zero => simp at hg
      | succ g1 =>
        rw [scanF_cons, scanF_cons]
        cases e : tryMatch (c :: cs) with
        | none =>
          simp only []
          exact ih g1 cs (by simp at hf; omega) (by simp at hg; omega)
        | some pr =>
          obtain ⟨m, rest⟩ := pr
          have hlt := tryMatch_len e
          simp only []
          rw [ih g1 rest (by simp at hf hlt; omega) (by simp at hg hlt; omega)]

/-! Correctness of the decimal printer. -/

theorem natToDecAux_zero (fuel : Nat) : natToDecAux fuel 0 = [] := by
  cases fuel <;> simp [natToDecAux]

theorem decValue_append_digit (xs : List Char) (c : Char) :
    decValue (xs ++ [c]) = 10 * decValue xs + (c.toNat - 48) := by
  simp [decValue, List.foldl_append]

theorem digitChar_toNat {d : Nat} (h : d < 10) : (digitChar d).toNat = 48 + d := by
  interval_cases d <;> decide

theorem digitChar_digit {d : Nat} (h : d < 10) : isDigitChar (digitChar d) = true := by
  interval_cases d <;> decide

theorem natToDecAux_spec : ∀ (fuel n : Nat), 0 < n → n ≤ fuel →
    decValue (natToDecAux fuel n) = n ∧ natToDecAux fuel n ≠ [] ∧
      ∀ c ∈ natToDecAux fuel n, isDigitChar c = true := by
  intro fuel
  induction fuel with
  | zero => intro n h1 h2; omega
  | succ f ih =>
    intro n h1 h2
    have hmod : n % 10 < 10 := Nat.mod_lt _ (by norm_num)
    simp only [natToDecAux]
    rw [if_neg (by omega)]
    by_cases hq : n / 10 = 0
    · rw [hq, natToDecAux_zero]
      simp only [List.nil_append]
      refine ⟨?_, by simp, ?_⟩
      · have hn : n % 10 = n := by omega
        simp [decValue, digitChar_toNat hmod]
        omega
      · intro c hc
        simp only [List.mem_singleton] at hc
        subst hc
        exact digitChar_digit hmod
    · have hdiv : n / 10 < n := Nat.div_lt_self h1 (by norm_num)
      obtain ⟨hv, hne, hdig⟩ := ih (n / 10) (Nat.pos_of_ne_zero hq) (by omega)
      refine ⟨?_, by simp, ?_⟩
      · rw [decValue_append_digit, hv, digitChar_toNat hmod]
        omega
      · intro c hc
        rcases List.mem_append.mp hc with h | h
        · exact hdig c h
        · simp only [List.mem_singleton] at h
          subst h
          exact digitChar_digit hmod

theorem decValue_natToDec (n : Nat) : decValue (natToDec n) = n := by
  by_cases h : n = 0
  · subst h; decide
  · simp only [natToDec, if_neg h]
    exact (natToDecAux_spec n n (Nat.pos_of_ne_zero h) le_rfl).1

theorem natToDec_ne_nil (n : Nat) : natToDec n ≠ [] := by
  by_cases h : n = 0
  · subst h; decide
  · simp only [natToDec, if_neg h]
    exact (natToDecAux_spec n n (Nat.pos_of_ne_zero h) le_rfl).2.1

theorem natToDec_digits (n : Nat) : ∀ c ∈ natToDec n, isDigitChar c = true := by
  by_cases h : n = 0
  · subst h
    intro c hc
    simp [natToDec] at hc
    subst hc
    decide
  · simp only [natToDec, if_neg h]
    exact (natToDecAux_spec n n (Nat.pos_of_ne_zero h) le_rfl).2.2

/-! Matching the serializer output. -/

theorem hostChunk (Y : List Char) : "Host ".data ++ Y = hostTag ++ (' ' :: Y) := rfl

theorem hostnameChunk (Y : List Char) :
    "\n\tHostname ".data ++ Y = '\n' :: (hostnameTag ++ (' ' :: Y)) := rfl

theorem userChunk (Y : List Char) :
    "\n\tUser ".data ++ Y = '\n' :: (userTag ++ (' ' :: Y)) := rfl

theorem portChunk (Y : List Char) :
    "\n\tPort ".data ++ Y = '\n' :: (portTag ++ (' ' :: Y)) := rfl

theorem keyChunk (Y : List Char) :
    "\n\tIdentityFile ".data ++ Y = '\n' :: (keyTag ++ (' ' :: Y)) := rfl

theorem nnChunk (Y : List Char) : "\n\n".data ++ Y = '\n' :: '\n' :: Y := rfl

theorem tryMatch_block (r : SSHConfig) (rest : List Char) (h : WellFormed r) :
    tryMatch (blockStr r ++ rest) = some (rawOf r, '\n' :: rest) := by
  obtain ⟨hID, hHost, hUser, hKey⟩ := h
  have hP1 : natToDec r.port ≠ [] := natToDec_ne_nil _
  have hP2 : ∀ c ∈ natToDec r.port, isDigitChar c = true := natToDec_digits _
  have hshape : blockStr r ++ rest =
      hostTag ++ (' ' :: (r.ID ++ '\n' :: (hostnameTag ++ (' ' :: (r.hostname ++
        '\n' :: (userTag ++ (' ' :: (r.user ++ '\n' :: (portTag ++ (' ' ::
          (natToDec r.port ++ '\n' :: (keyTag ++ (' ' :: (r.key_file ++
            '\n' :: '\n' :: rest)))))))))))))) := by
    simp only [blockStr, hostTag, hostnameTag, userTag, portTag, keyTag,
      List.append_assoc, List.cons_append, List.nil_append]
  rw [hshape]
  simp only [tryMatch, dropLit_self, Option.some_bind, idLine_spec hID,
    tokLine_spec hHost, tokLine_spec hUser, digLine_spec hP1 hP2,
    lastLine_spec hKey]
  rfl

theorem dropLit_host_ne {c : Char} (hc : c ≠ 'H') (l : List Char) :
    dropLit hostTag (c :: l) = none := by
  have hht : hostTag = 'H' :: "ost".data := rfl
  rw [hht]
  simp [dropLit, hc]

theorem tryMatch_not_host {c : Char} (hc : c ≠ 'H') (l : List Char) :
    tryMatch (c :: l) = none := by
  simp [tryMatch, dropLit_host_ne hc]

theorem blockStr_len (r : SSHConfig) : 2 ≤ (blockStr r).length := by
  have h5 : ("Host ".data).length = 5 := rfl
  simp only [blockStr, List.length_append, h5]
  omega

theorem blockStr_head (r : SSHConfig) (rest : List Char) :
    ∃ tl, blockStr r ++ rest = 'H' :: tl :=
  ⟨_, rfl⟩

theorem scan_serialize : ∀ (rs : List SSHConfig), (∀ r ∈ rs, WellFormed r) →
    ∀ f, (dataclass_to_file rs).length ≤ f →
      scanF f (dataclass_to_file rs) = rs.map rawOf := by
  intro rs
  induction rs with
  | nil =>
    intro _ f _
    simp [dataclass_to_file, scanF_nil]
  | cons r rs ih =>
    intro hwf f hf
    have hr : WellFormed r := hwf r (by simp)
    have hrs : ∀ x ∈ rs, WellFormed x := fun x hx => hwf x (by simp [hx])
    have hD : dataclass_to_file (r :: rs) = blockStr r ++ dataclass_to_file rs := rfl
    have hbl := blockStr_len r
    have hlen : (dataclass_to_file (r :: rs)).length
        = (blockStr r).length + (dataclass_to_file rs).length := by
      rw [hD, List.length_append]
    obtain ⟨tl, htl⟩ := blockStr_head r (dataclass_to_file rs)
    rcases f with _ | _ | f2
    · exfalso; omega
    · exfalso; omega
    · rw [hD, htl, scanF_cons, ← htl, tryMatch_block r _ hr]
      show rawOf r :: scanF (f2 + 1) ('\n' :: dataclass_to_file rs)
          = List.map rawOf (r :: rs)
      have hstep : scanF (f2 + 1) ('\n' :: dataclass_to_file rs)
          = scanF f2 (dataclass_to_file rs) := by
        rw [scanF_cons, tryMatch_not_host (by decide)]
      rw [hstep, ih hrs f2 (by omega)]
      simp

theorem finditer_serialize (rs : List SSHConfig) (h : ∀ r ∈ rs, WellFormed r) :
    finditer (dataclass_to_file rs) = rs.map rawOf :=
  scan_serialize rs h _ le_rfl

/-! Every scanned match carries a nonempty digit string as port group. -/

theorem digLine_digits {l d r : List Char} (h : digLine l = some (d, r)) :
    d ≠ [] ∧ ∀ c ∈ d, isDigitChar c = true := by
  simp only [digLine] at h
  split_ifs at h with h1 h2
  split at h
  · rename_i rest heq
    cases h
    refine ⟨?_, ?_⟩
    · intro hnil
      exact h2 (by rw [hnil]; rfl)
    · intro c hc
      exact List.mem_takeWhile_imp hc
  · exact absurd h (fun hh => Option.noConfusion hh)

theorem tryMatch_digits {l : List Char} {m : RawMatch} {rest : List Char}
    (h : tryMatch l = some (m, rest)) :
    m.portStr ≠ [] ∧ ∀ c ∈ m.portStr, isDigitChar c = true := by
  simp only [tryMatch, Option.bind_eq_some] at h
  obtain ⟨a, ha, ⟨idv, b⟩, hid, b2, hb2, ⟨hv, c⟩, hhc, c2, hc2, ⟨uv, d⟩, hud,
    d2, hd2, ⟨pv, e⟩, hpe, e2, he2, ⟨kv, f⟩, hkf, hfin⟩ := h
  simp only [Option.some.injEq, Prod.mk.injEq] at hfin
  obtain ⟨hm, hr⟩ := hfin
  subst hm
  simpa using digLine_digits hpe

theorem scanF_digits : ∀ (f : Nat) (l : List Char) (m : RawMatch),
    m ∈ scanF f l → m.portStr ≠ [] ∧ ∀ c ∈ m.portStr, isDigitChar c = true := by
  intro f
  induction f with
  | zero => intro l m hm; simp [scanF] at hm
  | succ f ih =>
    intro l m hm
    cases l with
    | nil => simp [scanF] at hm
    | cons c cs =>
      rw [scanF_cons] at hm
      cases e : tryMatch (c :: cs) with
      | none =>
        rw [e] at hm
        exact ih cs m hm
      | some pr =>
        obtain ⟨m1, rest⟩ := pr
        rw [e] at hm
        replace hm : m = m1 ∨ m ∈ scanF f rest := List.mem_cons.mp hm
        rcases hm with rfl | hm
        · exact tryMatch_digits e
        · exact ih rest m hm

theorem parseAll_ok : ∀ (ms : List RawMatch),
    (∀ m ∈ ms, m.portStr ≠ [] ∧ ∀ c ∈ m.portStr, isDigitChar c = true) →
    parseAll ms = Except.ok (ms.map convRaw) := by
  intro ms
  induction ms with
  | nil => intro _; rfl
  | cons m ms ih =>
    intro h
    obtain ⟨h1, h2⟩ := h m (by simp)
    have hall : m.portStr.all isDigitChar = true := List.all_eq_true.mpr h2
    have hint : pyInt m.portStr = Except.ok (decValue m.portStr) := by
      simp only [pyInt]
      rw [if_pos ⟨h1, hall⟩]
    have hrest := ih (fun x hx => h x (by simp [hx]))
    simp only [parseAll, hint, hrest, List.map_cons, convRaw]

theorem file_to_dataclass_ok (content : List Char) :
    file_to_dataclass content = Except.ok (parsedRecords content) := by
  unfold file_to_dataclass parsedRecords
  exact parseAll_ok _ (fun m hm => scanF_digits _ _ m hm)

theorem parsedRecords_serialize (records : List SSHConfig)
    (h : ∀ r ∈ records, WellFormed r) :
    parsedRecords (dataclass_to_file records) = records := by
  unfold parsedRecords
  rw [finditer_serialize records h, List.map_map]
  have hid : ∀ r ∈ records, (convRaw ∘ rawOf) r = r := by
    intro r hr
    simp [convRaw, rawOf, decValue_natToDec]
  rw [List.map_congr_left hid]
  simp

/-! Claim theorems. -/

/-- C1: for every sequence of well-formed host records (id, hostname,
user and key file non-space tokens, port decimal digits), parsing the
text produced by serializing the sequence reproduces exactly the same
sequence of records in the same order. -/
theorem C1_parse_serialize_roundtrip (records : List SSHConfig)
    (h : ∀ r ∈ records, WellFormed r) :
    file_to_dataclass (dataclass_to_file records) = Except.ok records := by
  rw [file_to_dataclass_ok, parsedRecords_serialize records h]

/-- Witness for C1 at a concrete one-record sequence. -/
theorem C1_parse_serialize_roundtrip_witness :
    (∀ r ∈ [(⟨"web".data, "web.example.com".data, "admin".data, 22,
        "/k/web".data⟩ : SSHConfig)], WellFormed r)
    ∧ file_to_dataclass (dataclass_to_file
        [⟨"web".data, "web.example.com".data, "admin".data, 22, "/k/web".data⟩])
      = Except.ok
        [⟨"web".data, "web.example.com".data, "admin".data, 22, "/k/web".data⟩] :=
  ⟨by decide, C1_parse_serialize_roundtrip _ (by decide)⟩

/-- C2: when some stored record has the hostname of the new record,
confirming the overwrite filters every record with that hostname out
(matching by hostname, not id) and appends the new record at the end,
so a single clashing record is replaced by exactly the new one, while
declining aborts and leaves the stored sequence unchanged (no new
sequence is written). -/
theorem C2_add_host_overwrite (hosts : List SSHConfig) (new : SSHConfig)
    (hex : ∃ h ∈ hosts, h.hostname = new.hostname) :
    add_host_update hosts new true
        = some (hosts.filter (fun h => h.hostname ≠ new.hostname) ++ [new])
      ∧ add_host_update hosts new false = none
      ∧ ∀ old, hosts = [old] → add_host_update hosts new true = some [new] := by
  obtain ⟨h0, hmem, heq⟩ := hex
  have hany : (hosts.any fun h => decide (h.hostname = new.hostname)) = true :=
    List.any_eq_true.mpr ⟨h0, hmem, decide_eq_true heq⟩
  refine ⟨?_, ?_, ?_⟩
  · simp only [add_host_update]
    rw [if_pos hany]
    simp
  · simp only [add_host_update]
    rw [if_pos hany]
    simp
  · intro old hol
    subst hol
    have h0old : h0 = old := List.mem_singleton.mp hmem
    subst h0old
    simp [add_host_update, heq]

/-- Witness for C2 at a concrete one-record store and clashing record. -/
theorem C2_add_host_overwrite_witness :
    add_host_update [⟨"a".data, "a.com".data, "u".data, 22, "k".data⟩]
        ⟨"b".data, "a.com".data, "v".data, 23, "k2".data⟩ true
      = some [⟨"b".data, "a.com".data, "v".data, 23, "k2".data⟩]
    ∧ add_host_update [⟨"a".data, "a.com".data, "u".data, 22, "k".data⟩]
        ⟨"b".data, "a.com".data, "v".data, 23, "k2".data⟩ false = none := by
  have h := C2_add_host_overwrite
    [⟨"a".data, "a.com".data, "u".data, 22, "k".data⟩]
    ⟨"b".data, "a.com".data, "v".data, 23, "k2".data⟩
    ⟨⟨"a".data, "a.com".data, "u".data, 22, "k".data⟩, by decide, by decide⟩
  exact ⟨h.2.2 _ rfl, h.2.1⟩

/-- C3 counterexample: the claim asserts some content with a non-numeric
Port field makes Parse fail; in fact parsing never fails on any
content, so no such input exists. -/
theorem C3_counterexample :
    ¬ ∃ content : List Char, (file_to_dataclass content).isOk = false := by
  rintro ⟨content, hcontent⟩
  rw [file_to_dataclass_ok] at hcontent
  simp [Except.isOk, Except.toBool] at hcontent

/-- C3 amended: a block whose Port field is non-numeric does not match
SSH_KEY_FILE_REGEX, whose port group admits digits only, so the block
is silently skipped; the number conversion only ever receives digit
strings and never raises, hence Parse succeeds on every content. -/
theorem C3_amended :
    file_to_dataclass
        "Host a\n\tHostname h\n\tUser u\n\tPort abc\n\tIdentityFile k\n".data
      = Except.ok []
    ∧ ∀ content : List Char, (file_to_dataclass content).isOk = true := by
  refine ⟨by decide, ?_⟩
  intro content
  rw [file_to_dataclass_ok]
  rfl

/-- C4 counterexample: the line addx has first token addx, which is in
the fixed command set of no command, yet the dispatcher selects the add
action rather than the unknown branch, because matching is by
startswith on the whole line. -/
theorem C4_counterexample :
    dispatch "addx".data = Command.add
    ∧ firstTok "addx".data = "addx".data
    ∧ "addx".data ∉ ["ssh".data, "remove".data, "add".data, "list".data,
        "help".data, "exit".data, "configure".data, "clear".data] := by
  decide

/-- C4 amended: the dispatcher matches the whole input line by literal
string prefix against the commands in source order, and exactly the
lines starting with none of the eight command literals reach the
unknown-command branch, which prints one message and dispatches no
action. -/
theorem C4_amended (text : List Char) :
    dispatch text = Command.unknown ↔
      (startsWithLit "ssh".data text = false
      ∧ startsWithLit "remove".data text = false
      ∧ startsWithLit "add".data text = false
      ∧ startsWithLit "list".data text = false
      ∧ startsWithLit "help".data text = false
      ∧ startsWithLit "exit".data text = false
      ∧ startsWithLit "configure".data text = false
      ∧ startsWithLit "clear".data text = false) := by
  unfold dispatch
  split_ifs with h1 h2 h3 h4 h5 h6 h7 h8 <;> simp_all

/-- C5 counterexample: on the empty host list, list_config fails with
the ValueError of max over an empty sequence, raised before anything is
printed: the output line list is empty and the error is not the
IndexError of the unconditional first-record access, contradicting the
claim that the table is printed before an indexing failure. -/
theorem C5_counterexample : list_config [] = ([], some PyErr.valueError) := by
  rfl

/-- C5 amended: on the empty host list the list operation fails with a
fatal ValueError raised by the max over the empty width sequence,
before any table output is produced; on every non-empty host list it
completes without error. -/
theorem C5_amended :
    list_config [] = ([], some PyErr.valueError)
    ∧ ∀ (h : SSHConfig) (hs : List SSHConfig), (list_config (h :: hs)).2 = none := by
  refine ⟨rfl, ?_⟩
  intro h hs
  simp [list_config, pyMaxNat]

/-- C6: parsing raises no error on any content, the output holds exactly
one record per regex match in file order, and on a representative
content with a stray comment, one well-formed block, a malformed block
missing its last three fields, and another well-formed block, exactly
the two well-formed blocks are parsed, in order. -/
theorem C6_malformed_skipped :
    (∀ content : List Char,
      file_to_dataclass content = Except.ok (parsedRecords content))
    ∧ file_to_dataclass ("# comment\nHost a\n\tHostname a.org\n\tUser u\n\tPort 7\n\tIdentityFile ka\n\nHost broken\n\tHostname bh\nHost b\n\tHostname b.org\n\tUser v\n\tPort 8\n\tIdentityFile kb\n\n".data)
      = Except.ok [⟨"a".data, "a.org".data, "u".data, 7, "ka".data⟩,
          ⟨"b".data, "b.org".data, "v".data, 8, "kb".data⟩] :=
  ⟨file_to_dataclass_ok, by decide⟩

/-- C7: the dispatch loop starts Running and one iteration reaches the
Terminated state exactly on end of input or on a line dispatched to the
exit branch; every other event, keyboard interrupt and unknown-command
lines included, leaves the loop Running. -/
theorem C7_loop_termination :
    initialLoopState = LoopState.Running
    ∧ ∀ e : LoopEvent, loopStep e = LoopState.Terminated ↔
        (e = LoopEvent.endOfInput
        ∨ ∃ t, e = LoopEvent.line t ∧ dispatch t = Command.exit) := by
  refine ⟨rfl, ?_⟩
  intro e
  cases e with
  | line t =>
    simp only [loopStep]
    split_ifs with h
    · simp [h]
    · simp [h]
  | keyboardInterrupt => simp [loopStep]
  | endOfInput => simp [loopStep]

/-- C8 counterexample: for the single record web, the row printed by the
list operation is web | admin@web.example.com with no dot padding, so
the row text claimed in the spec, with dots, appears nowhere in the
output. -/
theorem C8_counterexample :
    "web... | admin@web.example.com...".data ∉
      (list_config [⟨"web".data, "web.example.com".data, "admin".data, 22,
        "/k/web".data⟩]).1 := by
  decide

/-- C8 amended: for the single record web, list prints the header
IDENTIFIER | HOST, a separator of 27 equal signs, the row
web | admin@web.example.com with no dot padding because the column
widths equal the lengths of that record, and the usage line, and
completes without error. -/
theorem C8_amended :
    list_config [⟨"web".data, "web.example.com".data, "admin".data, 22,
        "/k/web".data⟩]
      = (["IDENTIFIER | HOST".data, List.replicate 27 '=',
          "web | admin@web.example.com".data,
          "\nUsage: \x27ssh <identifier>\x27 (eg: ssh web)".data], none) := by
  decide

/-- C9 counterexample: a block with Port 0 parses into a record with
port 0, outside the range 1 to 65535 the claim asserts. -/
theorem C9_counterexample :
    ∃ r ∈ parsedRecords
      "Host a\n\tHostname h\n\tUser u\n\tPort 0\n\tIdentityFile k\n".data,
      ¬ (1 ≤ r.port ∧ r.port ≤ 65535) := by
  decide

/-- C9 amended: the parser applies no range check to the port digits, so
parsed ports outside 1 to 65535 occur: Port 0 parses to port 0 and
Port 70000 parses to port 70000. -/
theorem C9_amended :
    file_to_dataclass
        "Host a\n\tHostname h\n\tUser u\n\tPort 0\n\tIdentityFile k\n".data
      = Except.ok [⟨"a".data, "h".data, "u".data, 0, "k".data⟩]
    ∧ file_to_dataclass
        "Host a\n\tHostname h\n\tUser u\n\tPort 70000\n\tIdentityFile k\n".data
      = Except.ok [⟨"a".data, "h".data, "u".data, 70000, "k".data⟩] :=
  ⟨by decide, by decide⟩

/-- C10: when the entered domain name contains no dot, the unpacking of
the one-part split result raises ValueError, a fatal error at the alias
derivation itself, before the wizard reaches its next prompt, instead
of an alias equal to the whole hostname or a clean abort. -/
theorem C10_no_dot_alias_crash (hostname : List Char) (h : '.' ∉ hostname) :
    deriveAlias hostname
      = Except.error "ValueError: not enough values to unpack" := by
  have hsplit : ∀ l : List Char, '.' ∉ l → pySplitOnce '.' l = none := by
    intro l
    induction l with
    | nil => intro _; rfl
    | cons c cs ih =>
      intro hl
      have hc : c ≠ '.' := fun hcc => hl (by simp [hcc])
      simp [pySplitOnce, hc, ih (fun hm => hl (by simp [hm]))]
  simp [deriveAlias, hsplit hostname h]

/-- Witness for C10 at the dotless hostname localhost. -/
theorem C10_no_dot_alias_crash_witness :
    ('.' ∉ "localhost".data)
    ∧ deriveAlias "localhost".data
      = Except.error "ValueError: not enough values to unpack" :=
  ⟨by decide, C10_no_dot_alias_crash _ (by decide)⟩
